import Mathlib

/-!
# Verification of the query-sheets ingestion and query pipeline

Shallow embedding of the core logic of the repository:

* `src/excel_to_postgres.py` — type inference (`convert_python_type_to_postgres`,
  `determine_data_type`, `get_types_casting_hierarchy`), the row-normalization
  and header-scan loop of `xlsx_to_sql`, the chunked JSONL spool, and the
  materialization statement sequence.
* `src/databases.py` — `run_query` (base case and templated sub-query
  expansion with `{{column}}` placeholder substitution).
* `src/main.py` — the resource-cleanup control flow of `process_excel_file`.

Python values are embedded as a tagged variant `PyVal`; machine integers are
`Int` (Python ints are arbitrary precision); stateful control flow is explicit
state passing; Python exceptions are explicit result constructors.
-/

set_option autoImplicit false

namespace QuerySheets

/-! ## Type inference engine (`src/excel_to_postgres.py` lines 69-148) -/

/-- The Python runtime values distinguished by `convert_python_type_to_postgres`.
Payloads are kept where the classification depends on them (`pyint`); for the
remaining variants only the runtime type tag is inspected by the source.
`pyother` stands for any Python object of a type not explicitly tested. -/
inductive PyVal where
  | pynone
  | pybool (b : Bool)
  | pystr (s : String)
  | pyfloat
  | pyint (n : Int)
  | pylist
  | pydict
  | pydatetime
  | pydate
  | pyother
deriving DecidableEq, Repr

/-- Embeds `class DataTypes(enum.Enum)` — the PostgreSQL data types (lines 69-78). -/
inductive DataTypes where
  | text
  | real
  | bigint
  | integer
  | json
  | timestamp
  | date
  | boolean
deriving DecidableEq, Repr

/-- Embeds `convert_python_type_to_postgres` (lines 82-112): the `if`-`isinstance`
chain, in source order.  `None` maps to boolean; the two integer bounds are
checked with strict comparisons exactly as in the source
(`-9223372036854775805 > val or val > 9223372036854775805`, then
`-2147483645 > val or val > 2147483645`). -/
def convert_python_type_to_postgres : PyVal → DataTypes
  | .pynone => .boolean
  | .pybool _ => .boolean
  | .pystr _ => .text
  | .pyfloat => .real
  | .pyint n =>
      if n < -9223372036854775805 ∨ 9223372036854775805 < n then .text
      else if n < -2147483645 ∨ 2147483645 < n then .bigint
      else .integer
  | .pylist => .json
  | .pydict => .json
  | .pydatetime => .timestamp
  | .pydate => .date
  | .pyother => .text

/-- Embeds `get_types_casting_hierarchy` (lines 132-148): the fixed rank table.  The
source's `else 0` fallback is unreachable because the dictionary covers every
enum member. -/
def get_types_casting_hierarchy : DataTypes → Nat
  | .text => 0
  | .real => 1
  | .bigint => 2
  | .integer => 3
  | .json => 4
  | .timestamp => 5
  | .date => 6
  | .boolean => 7

/-- Embeds `determine_data_type` (lines 115-129): keep whichever of the previous type
and the current value's classified type has the lower rank (the source binds
`current_data_type = convert_python_type_to_postgres(current_value)` first;
it is inlined here). -/
def determine_data_type (previous_type : DataTypes) (current_value : PyVal) : DataTypes :=
  if get_types_casting_hierarchy (convert_python_type_to_postgres current_value) <
      get_types_casting_hierarchy previous_type then
    convert_python_type_to_postgres current_value
  else
    previous_type

/-- The classification as the specification words it: booleans and null are
boolean, strings text, floats real; integers by absolute-value thresholds
(integer within ±2147483645, bigint within ±9223372036854775805, text beyond);
lists and key/value structures json; date-with-time timestamp; date-only date;
everything else text. -/
def classifySpec : PyVal → DataTypes
  | .pynone => .boolean
  | .pybool _ => .boolean
  | .pystr _ => .text
  | .pyfloat => .real
  | .pyint n =>
      if n.natAbs ≤ 2147483645 then .integer
      else if n.natAbs ≤ 9223372036854775805 then .bigint
      else .text
  | .pylist => .json
  | .pydict => .json
  | .pydatetime => .timestamp
  | .pydate => .date
  | .pyother => .text

/-! ## Row normalization inside `xlsx_to_sql` (lines 228-233)

The extraction loop compares each data row's length `L` against the current
header's length `H`:

* `L < H`: the source rebinds `row` to
  `itertools.chain(row, itertools.repeat(None, H - L))` and the very next
  line evaluates `len(row)` on that chain object, which raises
  `TypeError: object of type 'itertools.chain' has no len()` — the padded
  row is never produced.
* `L > H`: the source executes `headers = row[:len(headers)]`, replacing the
  header by the row's leading `H` values (the header's length stays `H`) and
  leaving the row itself untouched at length `L`.
* `L = H`: both pass through unchanged.
-/

/-- Outcome of one normalization iteration: the (possibly replaced) header and
the row as the loop continues with them, or the `TypeError` raised on a short
row. -/
inductive NormResult where
  | ok (headers row : List PyVal)
  | typeError
deriving DecidableEq, Repr

/-- The normalization step of `xlsx_to_sql` (lines 228-233), translated with
its actual dynamic behavior (see the section comment above). -/
def normalizeStep (headers row : List PyVal) : NormResult :=
  if row.length < headers.length then .typeError
  else if headers.length < row.length then .ok (row.take headers.length) row
  else .ok headers row

/-! ## Header scan, type reconciliation and spooling (`xlsx_to_sql` lines 222-247) -/

/-- Association-list model of the Python dict `table_data_types`: updating an
existing key keeps its original position, a new key is appended (Python dict
insertion order). -/
def assocSet (k : PyVal) (v : DataTypes) :
    List (PyVal × DataTypes) → List (PyVal × DataTypes)
  | [] => [(k, v)]
  | (k', v') :: rest => if k' = k then (k, v) :: rest else (k', v') :: assocSet k v rest

/-- Lookup with default, `table_data_types.get(h, DataTypes.boolean)`-style. -/
def assocGetD (t : List (PyVal × DataTypes)) (k : PyVal) (d : DataTypes) : DataTypes :=
  match t.find? (fun p => p.1 == k) with
  | some p => p.2
  | none => d

/-- The per-row schema update (lines 242-243):
`for h, v in zip(headers, row): table_data_types[h] = determine_data_type(table_data_types.get(h, DataTypes.boolean), v)`. -/
def tdtStep : List (PyVal × DataTypes) → List (PyVal × PyVal) → List (PyVal × DataTypes)
  | t, [] => t
  | t, hv :: rest =>
      tdtStep (assocSet hv.1 (determine_data_type (assocGetD t hv.1 .boolean) hv.2) t) rest

/-- Final state of a successful extraction scan: the header in effect, the
schema dict in insertion order, and the spooled rows in source order. -/
structure ScanOk where
  headers : List PyVal
  types : List (PyVal × DataTypes)
  spool : List (List PyVal)
deriving DecidableEq, Repr

/-- Result of the extraction loop: final state, or the `TypeError` raised by
the short-row branch. -/
inductive ScanResult where
  | ok (s : ScanOk)
  | typeError
deriving DecidableEq, Repr

/-- The extraction loop of `xlsx_to_sql` (lines 223-247) after the header row
has been taken: each data row is normalized (possibly replacing the header),
appended to the spool verbatim, and folded into the schema dict via
`zip(headers, row)` with the just-updated header. -/
def scanRows :
    List (List PyVal) → List PyVal → List (PyVal × DataTypes) → List (List PyVal) → ScanResult
  | [], hs, t, sp => .ok ⟨hs, t, sp⟩
  | row :: rest, hs, t, sp =>
      match normalizeStep hs row with
      | .typeError => .typeError
      | .ok hs' row' => scanRows rest hs' (tdtStep t (hs'.zip row')) (sp ++ [row'])

/-- The whole extraction pass: the first sheet row becomes the header, the
remaining rows are scanned. -/
def xlsxScan (hdr : List PyVal) (rows : List (List PyVal)) : ScanResult :=
  scanRows rows hdr [] []

/-! ## Materialization (`xlsx_to_sql` lines 258-277) -/

/-- The SQL statements issued by the materialization phase, abstracted to
their data content. -/
inductive Stmt where
  | dropTable (name : String)
  | createTable (name : String) (cols : List (PyVal × DataTypes))
  | insertBatch (name : String) (placeholders : Nat) (rows : List (List PyVal))
deriving DecidableEq, Repr

/-- One step of the read-back loop: append the row to the pending chunk and
flush it when it reaches the chunk size. -/
def rechunkStep (n : Nat) :
    List (List (List PyVal)) × List (List PyVal) → List PyVal →
      List (List (List PyVal)) × List (List PyVal)
  | (acc, buf), r =>
      if n ≤ (buf ++ [r]).length then (acc ++ [buf ++ [r]], []) else (acc, buf ++ [r])

/-- The second-pass re-chunking of the spool (lines 268-277): each read-back
row is appended to `chunk`, the chunk is flushed once it reaches `chunk_size`,
and a non-empty remainder is flushed at the end. -/
def rechunk (n : Nat) (rows : List (List PyVal)) : List (List (List PyVal)) :=
  match rows.foldl (rechunkStep n) ([], []) with
  | (acc, []) => acc
  | (acc, buf) => acc ++ [buf]

/-- The statement sequence of the materialization phase (lines 258-277):
`DROP TABLE IF EXISTS`, then `CREATE TABLE` with `table_data_types.items()`
in insertion order, then one `execute_batch` per read-back chunk, each built
from `len(headers)` `%s` placeholders and the chunk's rows verbatim. -/
def materializeStmts (tableName : String) (chunkSize : Nat) (s : ScanOk) : List Stmt :=
  Stmt.dropTable tableName :: Stmt.createTable tableName s.types ::
    (rechunk chunkSize s.spool).map (fun c => Stmt.insertBatch tableName s.headers.length c)

/-- The rows of an insert statement, `none` for DDL statements. -/
def insertRowsOf : Stmt → Option (List (List PyVal))
  | .insertBatch _ _ rs => some rs
  | _ => none

/-! ## Chunked JSONL spool (`xlsx_to_sql` lines 237-247 write side, 268-271
read side)

The spool is generic in the row type: `dumps` stands for `json.dumps` and
`loads` for `json.loads`; the file content is a character stream.  Writes
append `'\n'.join(serialized chunk) + '\n'`; the read-back iterates the file
line by line and parses each line. -/

section SpoolDefs

variable {Row : Type}

/-- One serialized record followed by its newline: within a written chunk,
every record ends up followed by exactly one `'\n'`. -/
def serLine (dumps : Row → List Char) (r : Row) : List Char :=
  dumps r ++ ['\n']

/-- The whole file content as if every row were written: concatenation of the
newline-terminated records. -/
def serialAll (dumps : Row → List Char) (rows : List Row) : List Char :=
  (rows.map (serLine dumps)).flatten

/-- Embeds `('\n'.join([json.dumps(r) for r in chunk]) + '\n').encode()` — the bytes
one chunk write appends to the temp file (lines 239 and 246). -/
def serChunk (dumps : Row → List Char) (chunk : List Row) : List Char :=
  (List.intersperse ['\n'] (chunk.map dumps)).flatten ++ ['\n']

/-- One iteration of the spooling in the extraction loop (lines 237-240):
append the row to the in-memory chunk, write the serialized chunk to the file
once it reaches the chunk size `b`, and clear it. -/
def spoolStep (dumps : Row → List Char) (b : Nat) :
    List Char × List Row → Row → List Char × List Row
  | (file, buf), r =>
      if b ≤ (buf ++ [r]).length then (file ++ serChunk dumps (buf ++ [r]), [])
      else (file, buf ++ [r])

/-- The finalize flush (lines 245-247): a non-empty remainder chunk is
written out. -/
def finishSpool (dumps : Row → List Char) : List Char × List Row → List Char
  | (file, []) => file
  | (file, buf) => file ++ serChunk dumps buf

/-- Writing all rows through the chunked spool: fold the loop and flush the
remainder. -/
def spoolWrite (dumps : Row → List Char) (b : Nat) (rows : List Row) : List Char :=
  finishSpool dumps (rows.foldl (spoolStep dumps b) ([], []))

/-- Split a character stream at newlines (accumulator holds the current line
reversed). -/
def splitNl : List Char → List Char → List (List Char)
  | [], acc => [acc.reverse]
  | c :: cs, acc => if c = '\n' then acc.reverse :: splitNl cs [] else splitNl cs (c :: acc)

/-- Python text-file line iteration (`for line in tmp`, line 269), with each
line's trailing newline stripped: content ending in a newline yields no final
empty line, and an empty file yields no lines at all. -/
def pyLines (s : List Char) : List (List Char) :=
  if (splitNl s []).getLast? = some [] then (splitNl s []).dropLast else splitNl s []

/-- The read-back pass (lines 268-271): parse every line; `none` when any
line fails to parse. -/
def readAll (loads : List Char → Option Row) (s : List Char) : Option (List Row) :=
  (pyLines s).mapM loads

end SpoolDefs

/-! ## Query template expansion (`src/databases.py` lines 58-104)

Query texts are character lists; table cells are a type parameter `Cell` with
a `render` function standing for Python's `str()` (used both by
`'{{%s}}' % k` and by `f'{v}'`); the engine stands for
`postgres.execute_query`, returning either a `psycopg2.Error` message or the
result rows (the first being the header row).  `run_query` is instrumented
with the list of queries passed to the engine, and the inner
`while key in q` loop carries explicit fuel: `diverge` models the loop still
running after `fuel` iterations, and `crash` models the `IndexError` that
Python's `result[0]` raises on an empty engine result. -/

section RunQuery

variable {Cell : Type}

/-- Python's substring test `key in q`. -/
def containsSub (key : List Char) : List Char → Bool
  | [] => key.isEmpty
  | c :: cs => key.isPrefixOf (c :: cs) || containsSub key cs

/-- Helper for `replaceAll`: the counter skips the remaining characters of a
matched occurrence, making every replacement non-overlapping and
left-to-right, as Python's `str.replace` is. -/
def replaceAllAux (key val : List Char) : List Char → Nat → List Char
  | [], _ => []
  | _ :: cs, Nat.succ k => replaceAllAux key val cs k
  | c :: cs, 0 =>
      if key.isPrefixOf (c :: cs) then val ++ replaceAllAux key val cs (key.length - 1)
      else c :: replaceAllAux key val cs 0

/-- Python's `q.replace(key, val)` for a non-empty `key`. -/
def replaceAll (key val q : List Char) : List Char :=
  replaceAllAux key val q 0

/-- The placeholder text `'{{%s}}' % k` (line 92). -/
def placeKey (k : List Char) : List Char :=
  '{' :: '{' :: (k ++ ['}', '}'])

/-- Result of `run_query`: the error dict, a table (first row the header),
the `IndexError` crash on an empty driver/sub result, or a diverging
substitution loop. -/
inductive QRes (Cell : Type) where
  | err (msg : String)
  | table (t : List (List Cell))
  | crash
  | diverge
deriving DecidableEq, Repr

/-- The base case of `run_query` (lines 69-77): execute on the engine, turn a
`psycopg2.Error` into the error-dict result and a success into the list of
row lists. -/
def runQueryBase (engine : List Char → Except String (List (List Cell))) (q : List Char) :
    QRes Cell :=
  match engine q with
  | .error e => .err e
  | .ok rows => .table rows

/-- The loop `while key in q: q = q.replace(key, f'{v}')` (lines 93-94) with
explicit fuel; `none` when the loop is still running after `fuel`
iterations. -/
def substLoop (key val : List Char) : Nat → List Char → Option (List Char)
  | 0, q => if containsSub key q then none else some q
  | n + 1, q =>
      if containsSub key q then substLoop key val n (replaceAll key val q) else some q

/-- The per-row substitution over `zip(headers, row)` (lines 91-94): each
column's placeholder is substituted in turn on the accumulated query text. -/
def substRow (render : Cell → List Char) (fuel : Nat) :
    List (Cell × Cell) → List Char → Option (List Char)
  | [], q => some q
  | kv :: rest, q =>
      match substLoop (placeKey (render kv.1)) (render kv.2) fuel q with
      | none => none
      | some q2 => substRow render fuel rest q2

/-- The per-driver-row loop of the recursive case (lines 89-102), accumulating
`new_headers` and `new_table` and instrumented with the queries passed to the
engine.  An engine error aborts immediately, discarding the accumulators. -/
def expandLoop (engine : List Char → Except String (List (List Cell)))
    (render : Cell → List Char) (fuel : Nat) (q : List Char) (hdr : List Cell) :
    List (List Cell) → List Cell → List (List Cell) → QRes Cell × List (List Char)
  | [], nh, nt => (.table (nh :: nt), [])
  | row :: rest, _, nt =>
      match substRow render fuel (hdr.zip row) q with
      | none => (.diverge, [])
      | some q2 =>
          match engine q2 with
          | .error e => (.err e, [q2])
          | .ok [] => (.crash, [q2])
          | .ok (h :: t) =>
              match expandLoop engine render fuel q hdr rest h (nt ++ t) with
              | (res, tr) => (res, q2 :: tr)

/-- Embeds `run_query(database_id, query, sub_query)` (lines 58-104), instrumented
with the queries passed to the engine.  With a sub-query the driver runs
first (returning its error dict unchanged on failure), then the template is
expanded once per driver data row. -/
def runQuery (engine : List Char → Except String (List (List Cell)))
    (render : Cell → List Char) (fuel : Nat) (q : List Char) :
    Option (List Char) → QRes Cell × List (List Char)
  | none => (runQueryBase engine q, [q])
  | some sq =>
      match engine sq with
      | .error e => (.err e, [sq])
      | .ok [] => (.crash, [sq])
      | .ok (hdr :: rows) =>
          match expandLoop engine render fuel q hdr rows [] [] with
          | (res, tr) => (res, sq :: tr)

/-- Specification-side view of one sub-execution: the substituted query is
run and must succeed with a non-empty result, split into its header and data
rows. -/
def execRow (engine : List Char → Except String (List (List Cell))) (s : List Char) :
    Option (List Cell × List (List Cell)) :=
  match engine s with
  | .ok (h :: t) => some (h, t)
  | _ => none

/-- The substitution loop for `key`/`val` on `q` never terminates: it is
still running at every fuel bound. -/
def substLoopDiverges (key val q : List Char) : Prop :=
  ∀ fuel, substLoop key val fuel q = none

/-- The whole per-row substitution never terminates at any fuel bound. -/
def substRowDiverges (render : Cell → List Char) (pairs : List (Cell × Cell))
    (q : List Char) : Prop :=
  ∀ fuel, substRow render fuel pairs q = none

end RunQuery

/-- Witness engine for `run_query_expands_per_row`: driver `D` yields one
`c` column with rows `R` and `T`; the substituted templates `WR` and `WT`
yield one and two data rows respectively. -/
def wEngine (q : List Char) : Except String (List (List (List Char))) :=
  if q = ['D'] then Except.ok [[['c']], [['R']], [['T']]]
  else if q = ['W', 'R'] then Except.ok [[['h']], [['r']]]
  else if q = ['W', 'T'] then Except.ok [[['h']], [['s']], [['u']]]
  else Except.error "bad"

/-- Witness engine for `run_query_first_failure`: the second substituted
template query fails with `boom`. -/
def wEngine2 (q : List Char) : Except String (List (List (List Char))) :=
  if q = ['D'] then Except.ok [[['c']], [['R']], [['T']]]
  else if q = ['W', 'R'] then Except.ok [[['h']], [['r']]]
  else Except.error "boom"

/-- Witness engine for `run_query_empty_driver`: the driver yields a header
row and no data rows. -/
def wEngine3 (q : List Char) : Except String (List (List (List Char))) :=
  if q = ['D'] then Except.ok [[['c']]] else Except.error "bad"

/-! ## Resource cleanup (`src/main.py` lines 109-137 and the
`tempfile.NamedTemporaryFile()` block of `xlsx_to_sql`, lines 222-247)

File-system state is the list of staged file names.  Each step of the bodies
is abstracted to its outcome (normal return or raised exception), so the
definitions range over every exit path of the `try`/`finally` and `with`
blocks. -/

/-- Outcome of one Python call: normal return or a raised exception. -/
inductive PyOutcome where
  | ok
  | exn (msg : String)
deriving DecidableEq, Repr

/-- Embeds `os.remove(fp)` wrapped in `except OSError: pass` (main.py lines
134-137): delete the file when present, swallow the error when not. -/
def removeFile (fp : String) (files : List String) : List String :=
  files.filter (fun f => f != fp)

/-- The `with tempfile.NamedTemporaryFile() as tmp:` block of `xlsx_to_sql`
(line 222): the temp file exists for the duration of the block and is deleted
on exit, on the success and the exception path alike; the block's outcome is
the body's outcome. -/
def xlsxToSqlTmp (tn : String) (body : PyOutcome) (files : List String) :
    PyOutcome × List String :=
  (body, removeFile tn (files ++ [tn]))

/-- Embeds `process_excel_file` (main.py lines 109-137): stage the uploaded file,
then inside the `try` block read the sheet names, check the requested sheet,
and run `xlsx_to_sql` (which holds its temp spool file `tn`); the `finally`
block removes the staged upload whatever happened before. -/
def processExcelFile (fp tn : String) (saveR sheetsR checkR ingestR : PyOutcome)
    (files : List String) : PyOutcome × List String :=
  match saveR with
  | .exn e => (.exn e, removeFile fp files)
  | .ok =>
      match sheetsR with
      | .exn e => (.exn e, removeFile fp (files ++ [fp]))
      | .ok =>
          match checkR with
          | .exn e => (.exn e, removeFile fp (files ++ [fp]))
          | .ok =>
              match xlsxToSqlTmp tn ingestR (files ++ [fp]) with
              | (res, fs) => (res, removeFile fp fs)

end QuerySheets

namespace QuerySheets

/-! ## Theorems for C1 and C2 -/

/-- C1: `convert_python_type_to_postgres` is total (it is a Lean function) and
agrees everywhere with the classification exactly as the specification states
it: boolean for booleans and null, text for strings, real for floats, the
two-threshold rule for integers, json for lists/dicts, timestamp for
date-with-time, date for date-only, and text for every other value. -/
theorem classify_matches_spec (v : PyVal) :
    convert_python_type_to_postgres v = classifySpec v := by
  cases v with
  | pyint n =>
      simp only [convert_python_type_to_postgres, classifySpec]
      by_cases h1 : n < -9223372036854775805 ∨ 9223372036854775805 < n
      · rw [if_pos h1]
        have hgt : ¬ n.natAbs ≤ 2147483645 := by omega
        have hgt2 : ¬ n.natAbs ≤ 9223372036854775805 := by omega
        rw [if_neg hgt, if_neg hgt2]
      · rw [if_neg h1]
        push_neg at h1
        by_cases h2 : n < -2147483645 ∨ 2147483645 < n
        · rw [if_pos h2]
          have hgt : ¬ n.natAbs ≤ 2147483645 := by omega
          have hle : n.natAbs ≤ 9223372036854775805 := by omega
          rw [if_neg hgt, if_pos hle]
        · rw [if_neg h2]
          push_neg at h2
          have hle : n.natAbs ≤ 2147483645 := by omega
          rw [if_pos hle]
  | _ => rfl

/-- Folding `determine_data_type` from an arbitrary seed stays inside the seed
and the classified values, and is rank-minimal among them. -/
theorem foldl_determine_min (vs : List PyVal) (seed : DataTypes) :
    vs.foldl determine_data_type seed ∈ seed :: vs.map convert_python_type_to_postgres ∧
      ∀ t ∈ seed :: vs.map convert_python_type_to_postgres,
        get_types_casting_hierarchy (vs.foldl determine_data_type seed) ≤
          get_types_casting_hierarchy t := by
  induction vs generalizing seed with
  | nil =>
      refine ⟨List.mem_singleton.mpr rfl, ?_⟩
      intro t ht
      rw [List.map_nil, List.mem_singleton] at ht
      subst ht
      exact Nat.le_refl _
  | cons v vs ih =>
      have step : determine_data_type seed v = convert_python_type_to_postgres v ∨
          determine_data_type seed v = seed := by
        unfold determine_data_type
        split
        · exact Or.inl rfl
        · exact Or.inr rfl
      have hle_seed : get_types_casting_hierarchy (determine_data_type seed v) ≤
          get_types_casting_hierarchy seed := by
        unfold determine_data_type
        split
        · omega
        · exact Nat.le_refl _
      have hle_v : get_types_casting_hierarchy (determine_data_type seed v) ≤
          get_types_casting_hierarchy (convert_python_type_to_postgres v) := by
        unfold determine_data_type
        split
        · exact Nat.le_refl _
        · omega
      obtain ⟨hmem, hmin⟩ := ih (determine_data_type seed v)
      constructor
      · rw [List.foldl_cons]
        rcases List.mem_cons.mp hmem with h | h
        · rw [h]
          rcases step with h' | h'
          · rw [h']
            exact List.mem_cons_of_mem _ (List.mem_cons_self _ _)
          · rw [h']
            exact List.mem_cons_self _ _
        · exact List.mem_cons_of_mem _ (List.mem_cons_of_mem _ h)
      · intro t ht
        rw [List.foldl_cons]
        rcases List.mem_cons.mp ht with h | h
        · subst h
          exact Nat.le_trans (hmin _ (List.mem_cons_self _ _)) hle_seed
        · rcases List.mem_cons.mp h with h' | h'
          · subst h'
            exact Nat.le_trans (hmin _ (List.mem_cons_self _ _)) hle_v
          · exact hmin _ (List.mem_cons_of_mem _ h')

/-- C2: for every sequence of values observed for one column, folding
`determine_data_type` from the initial seed `boolean` (as `xlsx_to_sql` does
via `table_data_types.get(h, DataTypes.boolean)`) yields the type of minimum
rank among `{boolean} ∪ {classify(v)}` under the hierarchy text=0, real=1,
bigint=2, integer=3, json=4, timestamp=5, date=6, boolean=7. -/
theorem determine_fold_is_min_rank (vs : List PyVal) :
    vs.foldl determine_data_type DataTypes.boolean ∈
        DataTypes.boolean :: vs.map convert_python_type_to_postgres ∧
      ∀ t ∈ DataTypes.boolean :: vs.map convert_python_type_to_postgres,
        get_types_casting_hierarchy (vs.foldl determine_data_type DataTypes.boolean) ≤
          get_types_casting_hierarchy t :=
  foldl_determine_min vs DataTypes.boolean

/-! ## Theorems for C3 -/

/-- C3 counterexample: with header `["a"]` (H = 1) and row `[1, 2]` (L = 2)
the code replaces the header by the row's first value — the new header has
length 1, not L = 2, and the output row (length 2) does not match the header
length — and with header `["a", "b"]` (H = 2) and row `[1]` (L = 1) the code
raises a `TypeError` instead of padding with `None`.  This refutes the claim
as stated. -/
theorem normalize_claim_counterexample :
    normalizeStep [PyVal.pystr "a"] [PyVal.pyint 1, PyVal.pyint 2] =
        NormResult.ok [PyVal.pyint 1] [PyVal.pyint 1, PyVal.pyint 2] ∧
      ([PyVal.pyint 1] : List PyVal).length ≠ 2 ∧
      ([PyVal.pyint 1, PyVal.pyint 2] : List PyVal).length ≠
        ([PyVal.pyint 1] : List PyVal).length ∧
      normalizeStep [PyVal.pystr "a", PyVal.pystr "b"] [PyVal.pyint 1] =
        NormResult.typeError := by
  decide

/-- A row of exactly the header's width passes through normalization
unchanged. -/
theorem normalizeStep_pass (headers row : List PyVal) (h : row.length = headers.length) :
    normalizeStep headers row = NormResult.ok headers row := by
  simp only [normalizeStep]
  rw [if_neg (by omega), if_neg (by omega)]

/-- C3 amended: for header length H and row length L the code behaves as
follows — `L < H` raises a `TypeError` (no padded row is produced); `L = H`
passes header and row through unchanged; `L > H` replaces the header by the
row's leading H values (the header length stays H, not L) and keeps the row at
length L, so the output row is then longer than the header in effect. -/
theorem normalize_code_behavior (headers row : List PyVal) :
    (row.length < headers.length → normalizeStep headers row = NormResult.typeError) ∧
      (row.length = headers.length → normalizeStep headers row = NormResult.ok headers row) ∧
      (headers.length < row.length →
        normalizeStep headers row = NormResult.ok (row.take headers.length) row ∧
          (row.take headers.length).length = headers.length) := by
  refine ⟨fun h => ?_, fun h => ?_, fun h => ?_⟩
  · simp only [normalizeStep, if_pos h]
  · simp only [normalizeStep]
    rw [if_neg (by omega), if_neg (by omega)]
  · constructor
    · simp only [normalizeStep]
      rw [if_neg (by omega), if_pos h]
    · rw [List.length_take]
      omega

/-- Witness for `normalize_code_behavior` at a concrete short row. -/
theorem normalize_code_behavior_witness :
    normalizeStep [PyVal.pystr "a", PyVal.pystr "b"] [PyVal.pyint 7] = NormResult.typeError :=
  (normalize_code_behavior [PyVal.pystr "a", PyVal.pystr "b"] [PyVal.pyint 7]).1 (by decide)

/-! ## Support lemmas for C5 -/

/-- The fold of the read-back loop: the flushed chunks plus the pending chunk
always hold exactly the rows seen so far, in order. -/
theorem rechunk_fold (n : Nat) (rows : List (List PyVal)) :
    ∀ (acc : List (List (List PyVal))) (buf : List (List PyVal)),
      (rows.foldl (rechunkStep n) (acc, buf)).1.flatten ++
          (rows.foldl (rechunkStep n) (acc, buf)).2 =
        acc.flatten ++ (buf ++ rows) := by
  induction rows with
  | nil => intro acc buf; simp
  | cons r rest ih =>
      intro acc buf
      rw [List.foldl_cons]
      by_cases h : n ≤ (buf ++ [r]).length
      · rw [show rechunkStep n (acc, buf) r = (acc ++ [buf ++ [r]], []) by
          simp only [rechunkStep, if_pos h]]
        rw [ih]
        simp [List.append_assoc]
      · rw [show rechunkStep n (acc, buf) r = (acc, buf ++ [r]) by
          simp only [rechunkStep, if_neg h]]
        rw [ih]
        simp [List.append_assoc]

/-- Re-chunking the spool and concatenating the chunks yields the spool back
unchanged, for any chunk size. -/
theorem rechunk_flatten (n : Nat) (rows : List (List PyVal)) :
    (rechunk n rows).flatten = rows := by
  have h := rechunk_fold n rows [] []
  simp only [List.flatten_nil, List.nil_append] at h
  unfold rechunk
  rcases hfold : rows.foldl (rechunkStep n) ([], []) with ⟨acc, buf⟩
  rw [hfold] at h
  cases buf with
  | nil => simpa using h
  | cons b bs => simpa [List.flatten_append] using h

/-- Key list of the dict after `assocSet`: unchanged for a present key,
appended for a fresh key. -/
theorem assocSet_map_fst (k : PyVal) (v : DataTypes) (t : List (PyVal × DataTypes)) :
    (assocSet k v t).map Prod.fst =
      if k ∈ t.map Prod.fst then t.map Prod.fst else t.map Prod.fst ++ [k] := by
  induction t with
  | nil => simp [assocSet]
  | cons p rest ih =>
      obtain ⟨k', v'⟩ := p
      by_cases hk : k' = k
      · subst hk
        simp [assocSet]
      · simp only [assocSet, if_neg hk, List.map_cons]
        rw [ih]
        by_cases hmem : k ∈ rest.map Prod.fst
        · rw [if_pos hmem, if_pos]
          simp [hmem]
        · rw [if_neg hmem, if_neg]
          · simp
          · simp only [List.mem_cons]
            rintro (h | h)
            · exact hk h.symm
            · exact hmem h

/-- Lemma: `tdtStep` leaves the key list unchanged when every pair's key is already
present. -/
theorem tdtStep_map_fst_present (pairs : List (PyVal × PyVal)) :
    ∀ t : List (PyVal × DataTypes), (∀ p ∈ pairs, p.1 ∈ t.map Prod.fst) →
      (tdtStep t pairs).map Prod.fst = t.map Prod.fst := by
  induction pairs with
  | nil => intro t _; rfl
  | cons p rest ih =>
      intro t hmem
      rw [show tdtStep t (p :: rest) =
          tdtStep (assocSet p.1 (determine_data_type (assocGetD t p.1 .boolean) p.2) t) rest
        from rfl]
      have hkeys : (assocSet p.1 (determine_data_type (assocGetD t p.1 .boolean) p.2) t).map
          Prod.fst = t.map Prod.fst := by
        rw [assocSet_map_fst, if_pos (hmem p (List.mem_cons_self _ _))]
      rw [ih _ fun q hq => by rw [hkeys]; exact hmem q (List.mem_cons_of_mem _ hq), hkeys]

/-- Starting from fresh, pairwise-distinct keys zipped with at least as many
values, `tdtStep` appends exactly those keys in order. -/
theorem tdtStep_map_fst_fresh (ks : List PyVal) :
    ∀ (vs : List PyVal) (t : List (PyVal × DataTypes)), ks.Nodup →
      (∀ k ∈ ks, k ∉ t.map Prod.fst) → ks.length ≤ vs.length →
      (tdtStep t (ks.zip vs)).map Prod.fst = t.map Prod.fst ++ ks := by
  induction ks with
  | nil => intro vs t _ _ _; simp [tdtStep]
  | cons k ks ih =>
      intro vs t hnd hfresh hlen
      cases vs with
      | nil => simp at hlen
      | cons v vs =>
          obtain ⟨hknotin, hndks⟩ := List.nodup_cons.mp hnd
          rw [List.zip_cons_cons]
          rw [show tdtStep t ((k, v) :: ks.zip vs) =
              tdtStep (assocSet k (determine_data_type (assocGetD t k .boolean) v) t)
                (ks.zip vs) from rfl]
          have hkeys : (assocSet k (determine_data_type (assocGetD t k .boolean) v) t).map
              Prod.fst = t.map Prod.fst ++ [k] := by
            rw [assocSet_map_fst, if_neg (hfresh k (List.mem_cons_self _ _))]
          rw [ih vs _ hndks ?_ (by simpa using Nat.le_of_succ_le_succ hlen), hkeys]
          · simp
          · intro k' hk'
            rw [hkeys, List.mem_append, List.mem_singleton]
            rintro (h | h)
            · exact hfresh k' (List.mem_cons_of_mem _ hk') h
            · exact hknotin (h ▸ hk')

/-- Unfolding equation for `scanRows` on a row that normalizes successfully. -/
theorem scanRows_cons_ok (rest : List (List PyVal)) (hs : List PyVal)
    (t : List (PyVal × DataTypes)) (sp : List (List PyVal)) (row hs' row' : List PyVal)
    (h : normalizeStep hs row = NormResult.ok hs' row') :
    scanRows (row :: rest) hs t sp =
      scanRows rest hs' (tdtStep t (hs'.zip row')) (sp ++ [row']) := by
  show (match normalizeStep hs row with
        | NormResult.typeError => ScanResult.typeError
        | NormResult.ok hs2 row2 =>
            scanRows rest hs2 (tdtStep t (hs2.zip row2)) (sp ++ [row2])) =
      scanRows rest hs' (tdtStep t (hs'.zip row')) (sp ++ [row'])
  rw [h]

/-- Scanning rows that all have the header's width keeps the header, appends
all rows to the spool in order, and preserves the schema key list. -/
theorem scanRows_uniform (rows : List (List PyVal)) (hdr : List PyVal) :
    ∀ (t : List (PyVal × DataTypes)) (sp : List (List PyVal)),
      (∀ r ∈ rows, r.length = hdr.length) → t.map Prod.fst = hdr →
      ∃ t', scanRows rows hdr t sp = ScanResult.ok ⟨hdr, t', sp ++ rows⟩ ∧
        t'.map Prod.fst = hdr := by
  induction rows with
  | nil =>
      intro t sp _ hkeys
      exact ⟨t, by simp [scanRows], hkeys⟩
  | cons r rest ih =>
      intro t sp hlen hkeys
      have hr : r.length = hdr.length := hlen r (List.mem_cons_self _ _)
      have hnorm : normalizeStep hdr r = NormResult.ok hdr r :=
        normalizeStep_pass hdr r hr
      have hsub : ∀ p ∈ hdr.zip r, p.1 ∈ t.map Prod.fst := by
        intro p hp
        rw [hkeys]
        exact (List.of_mem_zip hp).1
      obtain ⟨t', hrun, hkeys'⟩ := ih (tdtStep t (hdr.zip r)) (sp ++ [r])
        (fun q hq => hlen q (List.mem_cons_of_mem _ hq))
        (by rw [tdtStep_map_fst_present _ _ hsub, hkeys])
      refine ⟨t', ?_, hkeys'⟩
      rw [scanRows_cons_ok rest hdr t sp r hdr r hnorm, hrun]
      simp [List.append_assoc]

/-- The full scan on a sheet whose data rows all match the (duplicate-free)
header's width: the header survives, the spool is exactly the data rows, and
the schema's key list is exactly the header. -/
theorem xlsxScan_uniform (hdr r0 : List PyVal) (rest : List (List PyVal))
    (hnd : hdr.Nodup) (h0 : r0.length = hdr.length)
    (hr : ∀ r ∈ rest, r.length = hdr.length) :
    ∃ t', xlsxScan hdr (r0 :: rest) = ScanResult.ok ⟨hdr, t', r0 :: rest⟩ ∧
      t'.map Prod.fst = hdr := by
  have hnorm : normalizeStep hdr r0 = NormResult.ok hdr r0 :=
    normalizeStep_pass hdr r0 h0
  have hkeys : (tdtStep [] (hdr.zip r0)).map Prod.fst = hdr := by
    have := tdtStep_map_fst_fresh hdr r0 [] hnd (by simp) (Nat.le_of_eq h0.symm)
    simpa using this
  obtain ⟨t', hrun, hkeys'⟩ := scanRows_uniform rest hdr (tdtStep [] (hdr.zip r0)) [r0] hr hkeys
  refine ⟨t', ?_, hkeys'⟩
  unfold xlsxScan
  rw [scanRows_cons_ok rest hdr [] [] r0 hdr r0 hnorm]
  rw [show ([] : List (List PyVal)) ++ [r0] = [r0] from rfl, hrun]
  rfl

/-! ## Theorems for C5 -/

/-- C5 counterexample: sheet with header row `["a"]` and one data row
`[1, 2]`.  The header-replacement quirk fires, the schema ends up with the
single column `1 integer`, yet the spooled row is inserted untruncated with
width 2 — not truncated to the DDL's column count 1 as the claim states. -/
theorem materialize_claim_counterexample :
    xlsxScan [PyVal.pystr "a"] [[PyVal.pyint 1, PyVal.pyint 2]] =
        ScanResult.ok ⟨[PyVal.pyint 1], [(PyVal.pyint 1, DataTypes.integer)],
          [[PyVal.pyint 1, PyVal.pyint 2]]⟩ ∧
      materializeStmts "t" 5000 ⟨[PyVal.pyint 1], [(PyVal.pyint 1, DataTypes.integer)],
          [[PyVal.pyint 1, PyVal.pyint 2]]⟩ =
        [Stmt.dropTable "t", Stmt.createTable "t" [(PyVal.pyint 1, DataTypes.integer)],
          Stmt.insertBatch "t" 1 [[PyVal.pyint 1, PyVal.pyint 2]]] ∧
      ([PyVal.pyint 1, PyVal.pyint 2] : List PyVal).length ≠
        ([(PyVal.pyint 1, DataTypes.integer)] : List (PyVal × DataTypes)).length := by
  decide

/-- C5 amended: materialization drops the table and then creates it with
exactly the schema's columns in insertion order; the insert batches contain
the spooled rows verbatim, in order and never truncated, each batch carrying
`len(headers)` placeholders; the inserted row width matches the DDL column
count when the header is duplicate-free and every data row has the header's
width — but a wider spooled row keeps its own width (see the
counterexample). -/
theorem materialize_code_behavior (tableName : String) (chunkSize : Nat) (hdr : List PyVal)
    (rows : List (List PyVal)) (s : ScanOk) (hscan : xlsxScan hdr rows = ScanResult.ok s) :
    (materializeStmts tableName chunkSize s).take 2 =
        [Stmt.dropTable tableName, Stmt.createTable tableName s.types] ∧
      ((materializeStmts tableName chunkSize s).filterMap insertRowsOf).flatten = s.spool ∧
      (∀ st ∈ materializeStmts tableName chunkSize s, ∀ nm p rs,
          st = Stmt.insertBatch nm p rs → p = s.headers.length) ∧
      (hdr.Nodup → rows ≠ [] → (∀ r ∈ rows, r.length = hdr.length) →
        s.headers = hdr ∧ s.types.map Prod.fst = hdr ∧ s.spool = rows ∧
          ∀ r ∈ s.spool, r.length = s.types.length) := by
  refine ⟨rfl, ?_, ?_, ?_⟩
  · have hmap : ∀ (l : List (List (List PyVal))) (nm : String) (k : Nat),
        (l.map (fun c => Stmt.insertBatch nm k c)).filterMap insertRowsOf = l := by
      intro l nm k
      induction l with
      | nil => rfl
      | cons c cs ih => simp only [List.map_cons, List.filterMap_cons, insertRowsOf, ih]
    have h1 : (materializeStmts tableName chunkSize s).filterMap insertRowsOf =
        rechunk chunkSize s.spool := by
      simp only [materializeStmts, List.filterMap_cons, insertRowsOf]
      exact hmap _ _ _
    rw [h1, rechunk_flatten]
  · intro st hst nm p rs heq
    simp only [materializeStmts, List.mem_cons, List.mem_map] at hst
    rcases hst with rfl | rfl | ⟨c, _, rfl⟩
    · exact Stmt.noConfusion heq
    · exact Stmt.noConfusion heq
    · injection heq with h1 h2 h3
      exact h2.symm
  · intro hnd hne hlen
    rcases rows with _ | ⟨r0, rest⟩
    · exact absurd rfl hne
    obtain ⟨t', hrun, hkeys'⟩ := xlsxScan_uniform hdr r0 rest hnd
      (hlen r0 (List.mem_cons_self _ _)) (fun r hr => hlen r (List.mem_cons_of_mem _ hr))
    rw [hrun] at hscan
    injection hscan with hs
    subst hs
    refine ⟨rfl, hkeys', rfl, ?_⟩
    intro r hr
    rw [hlen r hr, ← hkeys', List.length_map]

/-- Witness for `materialize_code_behavior`: a one-column, one-row sheet whose
scan result is computed concretely and whose insert batches flatten back to
the spool. -/
theorem materialize_code_behavior_witness :
    xlsxScan [PyVal.pystr "a"] [[PyVal.pyint 3]] =
        ScanResult.ok ⟨[PyVal.pystr "a"], [(PyVal.pystr "a", DataTypes.integer)],
          [[PyVal.pyint 3]]⟩ ∧
      ((materializeStmts "t" 2 ⟨[PyVal.pystr "a"], [(PyVal.pystr "a", DataTypes.integer)],
          [[PyVal.pyint 3]]⟩).filterMap insertRowsOf).flatten = [[PyVal.pyint 3]] :=
  ⟨by decide,
   (materialize_code_behavior "t" 2 [PyVal.pystr "a"] [[PyVal.pyint 3]]
      ⟨[PyVal.pystr "a"], [(PyVal.pystr "a", DataTypes.integer)], [[PyVal.pyint 3]]⟩
      (by decide)).2.1⟩

section SpoolProofs

variable {Row : Type}

/-- A written chunk's bytes are exactly the concatenation of its records'
newline-terminated serializations. -/
theorem serChunk_eq_serialAll (dumps : Row → List Char) :
    ∀ chunk : List Row, chunk ≠ [] → serChunk dumps chunk = serialAll dumps chunk := by
  intro chunk
  induction chunk with
  | nil => intro h; exact absurd rfl h
  | cons r rest ih =>
      intro _
      cases rest with
      | nil => simp [serChunk, serialAll, serLine]
      | cons r2 rest2 =>
          have hstep : serChunk dumps (r :: r2 :: rest2) =
              serLine dumps r ++ serChunk dumps (r2 :: rest2) := by
            simp [serChunk, serLine, List.intersperse, List.append_assoc]
          rw [hstep, ih (by simp)]
          simp [serialAll, serLine]

/-- The serialization distributes over concatenation of row lists. -/
theorem serialAll_append (dumps : Row → List Char) (xs ys : List Row) :
    serialAll dumps (xs ++ ys) = serialAll dumps xs ++ serialAll dumps ys := by
  simp [serialAll]

/-- Invariant of the write loop: the file plus the pending chunk always
serialize the rows seen so far, independently of where the chunk boundaries
fall. -/
theorem finishSpool_fold (dumps : Row → List Char) (b : Nat) (rows : List Row) :
    ∀ (file : List Char) (buf : List Row),
      finishSpool dumps (rows.foldl (spoolStep dumps b) (file, buf)) =
        file ++ serialAll dumps (buf ++ rows) := by
  induction rows with
  | nil =>
      intro file buf
      cases buf with
      | nil => simp [finishSpool, serialAll]
      | cons x xs =>
          rw [List.foldl_nil, List.append_nil]
          rw [show finishSpool dumps (file, x :: xs) = file ++ serChunk dumps (x :: xs) from rfl]
          rw [serChunk_eq_serialAll dumps _ (by simp)]
  | cons r rest ih =>
      intro file buf
      rw [List.foldl_cons]
      by_cases h : b ≤ (buf ++ [r]).length
      · rw [show spoolStep dumps b (file, buf) r =
            (file ++ serChunk dumps (buf ++ [r]), []) by simp only [spoolStep, if_pos h]]
        rw [ih, serChunk_eq_serialAll dumps _ (by simp)]
        rw [List.append_assoc, ← serialAll_append]
        simp [List.append_assoc]
      · rw [show spoolStep dumps b (file, buf) r = (file, buf ++ [r]) by
          simp only [spoolStep, if_neg h]]
        rw [ih]
        simp [List.append_assoc]

/-- The spool's file content is independent of the batch boundaries: it is
always the concatenation of the newline-terminated records. -/
theorem spoolWrite_eq_serialAll (dumps : Row → List Char) (b : Nat) (rows : List Row) :
    spoolWrite dumps b rows = serialAll dumps rows := by
  have h := finishSpool_fold dumps b rows [] []
  simpa [spoolWrite] using h

/-- Splitting a stream that starts with a newline-free line. -/
theorem splitNl_append (l : List Char) (hnl : '\n' ∉ l) :
    ∀ (rest acc : List Char),
      splitNl (l ++ '\n' :: rest) acc = (acc.reverse ++ l) :: splitNl rest [] := by
  induction l with
  | nil => intro rest acc; simp [splitNl]
  | cons c cs ih =>
      intro rest acc
      have hc : ¬ c = '\n' := fun h => hnl (h ▸ List.mem_cons_self _ _)
      rw [List.cons_append]
      rw [show splitNl (c :: (cs ++ '\n' :: rest)) acc =
          splitNl (cs ++ '\n' :: rest) (c :: acc) by simp [splitNl, hc]]
      rw [ih (fun h => hnl (List.mem_cons_of_mem _ h)) rest (c :: acc)]
      simp

/-- Splitting the serialized stream recovers each record, plus the final
empty segment after the last newline. -/
theorem splitNl_serialAll (dumps : Row → List Char) (rows : List Row)
    (hnl : ∀ r ∈ rows, '\n' ∉ dumps r) :
    splitNl (serialAll dumps rows) [] = rows.map dumps ++ [[]] := by
  induction rows with
  | nil => simp [serialAll, splitNl]
  | cons r rest ih =>
      have hser : serialAll dumps (r :: rest) = dumps r ++ '\n' :: serialAll dumps rest := by
        simp [serialAll, serLine]
      rw [hser, splitNl_append (dumps r) (hnl r (List.mem_cons_self _ _)) _ []]
      rw [ih fun q hq => hnl q (List.mem_cons_of_mem _ hq)]
      simp

/-- Line iteration over the written spool yields exactly the serialized
records, in order. -/
theorem pyLines_serialAll (dumps : Row → List Char) (rows : List Row)
    (hnl : ∀ r ∈ rows, '\n' ∉ dumps r) :
    pyLines (serialAll dumps rows) = rows.map dumps := by
  unfold pyLines
  rw [splitNl_serialAll dumps rows hnl]
  rw [if_pos (by simp)]
  simp

/-- Parsing the mapped serializations with a left inverse recovers the rows. -/
theorem mapM_loads (dumps : Row → List Char) (loads : List Char → Option Row) :
    ∀ rows : List Row, (∀ r ∈ rows, loads (dumps r) = some r) →
      (rows.map dumps).mapM loads = some rows := by
  intro rows
  induction rows with
  | nil => intro _; rfl
  | cons r rest ih =>
      intro hinj
      rw [List.map_cons, List.mapM_cons, hinj r (List.mem_cons_self _ _),
        ih fun q hq => hinj q (List.mem_cons_of_mem _ hq)]
      rfl

/-- C4: spool round-trip.  For any rows, any batch size ≥ 1, and any
serialization that is newline-free and inverted by the parser on those rows
(as `json.dumps`/`json.loads` are on JSON-serializable values), writing the
rows through the chunked spool and re-reading the backing storage from the
start yields exactly the original rows in their original order. -/
theorem spool_roundtrip (dumps : Row → List Char) (loads : List Char → Option Row)
    (b : Nat) (rows : List Row) (_hb : 1 ≤ b)
    (hinj : ∀ r ∈ rows, loads (dumps r) = some r)
    (hnl : ∀ r ∈ rows, '\n' ∉ dumps r) :
    readAll loads (spoolWrite dumps b rows) = some rows := by
  unfold readAll
  rw [spoolWrite_eq_serialAll, pyLines_serialAll dumps rows hnl, mapM_loads dumps loads rows hinj]

end SpoolProofs

/-- Witness for `spool_roundtrip`: three rows written with batch size 2
(one full chunk plus a flushed remainder) read back intact. -/
theorem spool_roundtrip_witness :
    (1 ≤ 2) ∧
      readAll (fun l => some (l.length - 1))
          (spoolWrite (fun n => List.replicate (n + 1) 'x') 2 [0, 1, 2]) =
        some [0, 1, 2] :=
  ⟨by decide,
   spool_roundtrip (fun n => List.replicate (n + 1) 'x') (fun l => some (l.length - 1))
     2 [0, 1, 2] (by decide) (by decide) (by decide)⟩

section RunQueryProofs

variable {Cell : Type}

/-- Unfolding equation for `expandLoop` on a non-empty row list. -/
theorem expandLoop_cons (engine : List Char → Except String (List (List Cell)))
    (render : Cell → List Char) (fuel : Nat) (q : List Char) (hdr : List Cell)
    (row : List Cell) (rest : List (List Cell)) (nh : List Cell) (nt : List (List Cell)) :
    expandLoop engine render fuel q hdr (row :: rest) nh nt =
      match substRow render fuel (hdr.zip row) q with
      | none => (QRes.diverge, [])
      | some q2 =>
          match engine q2 with
          | .error e => (QRes.err e, [q2])
          | .ok [] => (QRes.crash, [q2])
          | .ok (h :: t) =>
              match expandLoop engine render fuel q hdr rest h (nt ++ t) with
              | (res, tr) => (res, q2 :: tr) := rfl

/-- Unfolding of `expandLoop` on a row whose substitution terminates and
whose execution succeeds non-empty. -/
theorem expandLoop_cons_ok (engine : List Char → Except String (List (List Cell)))
    (render : Cell → List Char) (fuel : Nat) (q : List Char) (hdr row : List Cell)
    (rest : List (List Cell)) (nh : List Cell) (nt : List (List Cell)) (q2 : List Char)
    (h : List Cell) (t : List (List Cell))
    (hs : substRow render fuel (hdr.zip row) q = some q2)
    (he : engine q2 = Except.ok (h :: t)) :
    expandLoop engine render fuel q hdr (row :: rest) nh nt =
      ((expandLoop engine render fuel q hdr rest h (nt ++ t)).1,
        q2 :: (expandLoop engine render fuel q hdr rest h (nt ++ t)).2) := by
  rw [expandLoop_cons, hs]
  show (match engine q2 with
        | Except.error e => (QRes.err e, [q2])
        | Except.ok [] => (QRes.crash, [q2])
        | Except.ok (h :: t) =>
            match expandLoop engine render fuel q hdr rest h (nt ++ t) with
            | (res, tr) => (res, q2 :: tr)) =
      ((expandLoop engine render fuel q hdr rest h (nt ++ t)).1,
        q2 :: (expandLoop engine render fuel q hdr rest h (nt ++ t)).2)
  rw [he]

/-- Unfolding of `expandLoop` on a row whose substitution terminates but
whose execution fails: the error is returned at once, the accumulators are
discarded. -/
theorem expandLoop_cons_err (engine : List Char → Except String (List (List Cell)))
    (render : Cell → List Char) (fuel : Nat) (q : List Char) (hdr row : List Cell)
    (rest : List (List Cell)) (nh : List Cell) (nt : List (List Cell)) (q2 : List Char)
    (e : String)
    (hs : substRow render fuel (hdr.zip row) q = some q2)
    (he : engine q2 = Except.error e) :
    expandLoop engine render fuel q hdr (row :: rest) nh nt = (QRes.err e, [q2]) := by
  rw [expandLoop_cons, hs]
  show (match engine q2 with
        | Except.error e => (QRes.err e, [q2])
        | Except.ok [] => (QRes.crash, [q2])
        | Except.ok (h :: t) =>
            match expandLoop engine render fuel q hdr rest h (nt ++ t) with
            | (res, tr) => (res, q2 :: tr)) = (QRes.err e, [q2])
  rw [he]

/-- Running `expandLoop` over a prefix whose substitutions terminate and whose
executions all succeed non-empty continues on the remaining rows with the
accumulated header and data rows, recording the substituted queries in
order. -/
theorem expandLoop_append (engine : List Char → Except String (List (List Cell)))
    (render : Cell → List Char) (fuel : Nat) (q : List Char) (hdr : List Cell) :
    ∀ (pre rest : List (List Cell)) (qs : List (List Char))
      (outs : List (List Cell × List (List Cell))) (nh : List Cell) (nt : List (List Cell)),
      pre.mapM (fun r => substRow render fuel (hdr.zip r) q) = some qs →
      qs.mapM (execRow engine) = some outs →
      expandLoop engine render fuel q hdr (pre ++ rest) nh nt =
        ((expandLoop engine render fuel q hdr rest ((outs.map Prod.fst).getLastD nh)
            (nt ++ (outs.map Prod.snd).flatten)).1,
          qs ++ (expandLoop engine render fuel q hdr rest ((outs.map Prod.fst).getLastD nh)
            (nt ++ (outs.map Prod.snd).flatten)).2) := by
  intro pre
  induction pre with
  | nil =>
      intro rest qs outs nh nt hsub hexec
      rw [List.mapM_nil] at hsub
      injection hsub with hqs
      subst hqs
      rw [List.mapM_nil] at hexec
      injection hexec with houts
      subst houts
      simp
  | cons p pre' ih =>
      intro rest qs outs nh nt hsub hexec
      rw [List.mapM_cons] at hsub
      cases hq1 : substRow render fuel (hdr.zip p) q with
      | none => rw [hq1] at hsub; simp at hsub
      | some q1 =>
          rw [hq1] at hsub
          cases hqs' : pre'.mapM (fun r => substRow render fuel (hdr.zip r) q) with
          | none => rw [hqs'] at hsub; simp at hsub
          | some qs' =>
              rw [hqs'] at hsub
              simp only [Option.bind_some, Option.pure_def] at hsub
              injection hsub with hqs
              subst hqs
              rw [List.mapM_cons] at hexec
              cases hx1 : execRow engine q1 with
              | none => rw [hx1] at hexec; simp at hexec
              | some out1 =>
                  rw [hx1] at hexec
                  cases houts' : qs'.mapM (execRow engine) with
                  | none => rw [houts'] at hexec; simp at hexec
                  | some outs' =>
                      rw [houts'] at hexec
                      simp only [Option.bind_some, Option.pure_def] at hexec
                      injection hexec with houts
                      subst houts
                      obtain ⟨h, t, heng, hout⟩ :
                          ∃ h t, engine q1 = Except.ok (h :: t) ∧ out1 = (h, t) := by
                        unfold execRow at hx1
                        cases heng : engine q1 with
                        | error e => rw [heng] at hx1; simp at hx1
                        | ok rows =>
                            rw [heng] at hx1
                            cases rows with
                            | nil => simp at hx1
                            | cons h t =>
                                injection hx1 with hx
                                exact ⟨h, t, rfl, hx.symm⟩
                      subst hout
                      rw [List.cons_append,
                        expandLoop_cons_ok engine render fuel q hdr p (pre' ++ rest)
                          nh nt q1 h t hq1 heng]
                      rw [ih rest qs' outs' h (nt ++ t) hqs' houts']
                      simp only [List.map_cons, List.flatten_cons, List.getLastD_cons,
                        List.append_assoc, List.cons_append]

/-- C6: when a sub-query is present, its driver succeeds with header `hdr`
and data rows `rows`, every per-row substitution terminates (producing the
substituted queries `qs`, one per data row, in driver order), and every
sub-execution succeeds non-empty (with header/data split `outs`), then
`run_query` executes exactly the driver query followed by the substituted
queries in driver-row order, and returns a single table whose header is the
last sub-execution's header and whose data rows are the concatenation of all
sub-executions' data rows in that order. -/
theorem run_query_expands_per_row (engine : List Char → Except String (List (List Cell)))
    (render : Cell → List Char) (fuel : Nat) (q sq : List Char) (hdr : List Cell)
    (rows : List (List Cell)) (qs : List (List Char))
    (outs : List (List Cell × List (List Cell)))
    (hdrv : engine sq = Except.ok (hdr :: rows))
    (hsub : rows.mapM (fun r => substRow render fuel (hdr.zip r) q) = some qs)
    (hexec : qs.mapM (execRow engine) = some outs) :
    runQuery engine render fuel q (some sq) =
      (QRes.table ((outs.map Prod.fst).getLastD [] :: (outs.map Prod.snd).flatten),
        sq :: qs) := by
  have hexp := expandLoop_append engine render fuel q hdr rows [] qs outs [] [] hsub hexec
  rw [List.append_nil] at hexp
  show (match engine sq with
        | Except.error e => (QRes.err e, [sq])
        | Except.ok [] => (QRes.crash, [sq])
        | Except.ok (hdr :: rows) =>
            match expandLoop engine render fuel q hdr rows [] [] with
            | (res, tr) => (res, sq :: tr)) =
      (QRes.table ((outs.map Prod.fst).getLastD [] :: (outs.map Prod.snd).flatten), sq :: qs)
  rw [hdrv]
  show ((expandLoop engine render fuel q hdr rows [] []).1,
        sq :: (expandLoop engine render fuel q hdr rows [] []).2) =
      (QRes.table ((outs.map Prod.fst).getLastD [] :: (outs.map Prod.snd).flatten), sq :: qs)
  rw [hexp]
  simp [expandLoop]


/-- Witness for `run_query_expands_per_row`: the template `W{{c}}` runs once
per driver row with both result sets concatenated under the last header. -/
theorem run_query_expands_per_row_witness :
    runQuery wEngine (fun s => s) 4 ('W' :: placeKey ['c']) (some ['D']) =
      (QRes.table [[['h']], [['r']], [['s']], [['u']]],
        [['D'], ['W', 'R'], ['W', 'T']]) :=
  run_query_expands_per_row wEngine (fun s => s) 4 ('W' :: placeKey ['c']) ['D']
    [['c']] [[['R']], [['T']]] [['W', 'R'], ['W', 'T']]
    [([['h']], [[['r']]]), ([['h']], [[['s']], [['u']]])]
    (by rfl) (by rfl) (by rfl)

/-- C7: `run_query` surfaces the first failure and stops.  Base case: an
engine error becomes the error result carrying the engine's message, with no
further execution.  Recursive case: a failing driver propagates its error
with no template execution (the trace is just the driver query); and when the
driver succeeds, the prefix of rows substitutes and executes successfully but
row `bad`'s execution fails, the error is returned at once — the trace stops
at the failing query, the rows after `bad` are never executed, and the data
rows accumulated from the prefix are discarded (the result is the bare
error). -/
theorem run_query_first_failure (engine : List Char → Except String (List (List Cell)))
    (render : Cell → List Char) (fuel : Nat) (q : List Char) :
    (∀ e, engine q = Except.error e →
        runQuery engine render fuel q none = (QRes.err e, [q])) ∧
      (∀ sq e, engine sq = Except.error e →
        runQuery engine render fuel q (some sq) = (QRes.err e, [sq])) ∧
      (∀ sq (hdr : List Cell) pre bad post qs outs qb e,
        engine sq = Except.ok (hdr :: (pre ++ bad :: post)) →
        pre.mapM (fun r => substRow render fuel (hdr.zip r) q) = some qs →
        qs.mapM (execRow engine) = some outs →
        substRow render fuel (hdr.zip bad) q = some qb →
        engine qb = Except.error e →
        runQuery engine render fuel q (some sq) = (QRes.err e, sq :: (qs ++ [qb]))) := by
  refine ⟨fun e he => ?_, fun sq e he => ?_, ?_⟩
  · show ((match engine q with
          | Except.error e => QRes.err e
          | Except.ok rows => QRes.table rows), [q]) = (QRes.err e, [q])
    rw [he]
  · show (match engine sq with
        | Except.error e => (QRes.err e, [sq])
        | Except.ok [] => (QRes.crash, [sq])
        | Except.ok (hdr :: rows) =>
            match expandLoop engine render fuel q hdr rows [] [] with
            | (res, tr) => (res, sq :: tr)) = (QRes.err e, [sq])
    rw [he]
  · intro sq hdr pre bad post qs outs qb e hdrv hsub hexec hsubbad heng
    have hexp := expandLoop_append engine render fuel q hdr pre (bad :: post) qs outs [] []
      hsub hexec
    rw [expandLoop_cons_err engine render fuel q hdr bad post
      ((outs.map Prod.fst).getLastD []) ([] ++ (outs.map Prod.snd).flatten) qb e
      hsubbad heng] at hexp
    show (match engine sq with
        | Except.error e => (QRes.err e, [sq])
        | Except.ok [] => (QRes.crash, [sq])
        | Except.ok (hdr :: rows) =>
            match expandLoop engine render fuel q hdr rows [] [] with
            | (res, tr) => (res, sq :: tr)) = (QRes.err e, sq :: (qs ++ [qb]))
    rw [hdrv]
    show ((expandLoop engine render fuel q hdr (pre ++ bad :: post) [] []).1,
        sq :: (expandLoop engine render fuel q hdr (pre ++ bad :: post) [] []).2) =
      (QRes.err e, sq :: (qs ++ [qb]))
    rw [hexp]


/-- Witness for `run_query_first_failure`: the first row succeeds, the second
fails, and the whole call returns the bare error with the trace stopping at
the failing query. -/
theorem run_query_first_failure_witness :
    runQuery wEngine2 (fun s => s) 4 ('W' :: placeKey ['c']) (some ['D']) =
      (QRes.err "boom", [['D'], ['W', 'R'], ['W', 'T']]) :=
  (run_query_first_failure wEngine2 (fun s => s) 4 ('W' :: placeKey ['c'])).2.2
    ['D'] [['c']] [[['R']]] [['T']] [] [['W', 'R']] [([['h']], [[['r']]])] ['W', 'T'] "boom"
    (by rfl) (by rfl) (by rfl) (by rfl) (by rfl)

/-- C10: a present sub-query whose driver succeeds with only the header row
makes `run_query` execute the template zero times (the trace holds only the
driver query) and return the table `[[]]` — a single row that is the empty
list, not the driver's header and not an empty sequence. -/
theorem run_query_empty_driver (engine : List Char → Except String (List (List Cell)))
    (render : Cell → List Char) (fuel : Nat) (q sq : List Char) (hdr : List Cell)
    (hdrv : engine sq = Except.ok [hdr]) :
    runQuery engine render fuel q (some sq) = (QRes.table [[]], [sq]) := by
  show (match engine sq with
      | Except.error e => (QRes.err e, [sq])
      | Except.ok [] => (QRes.crash, [sq])
      | Except.ok (hdr :: rows) =>
          match expandLoop engine render fuel q hdr rows [] [] with
          | (res, tr) => (res, sq :: tr)) = (QRes.table [[]], [sq])
  rw [hdrv]
  rfl


/-- Witness for `run_query_empty_driver` at the concrete empty driver. -/
theorem run_query_empty_driver_witness :
    runQuery wEngine3 (fun s => s) 3 ['X'] (some ['D']) = (QRes.table [[]], [['D']]) :=
  run_query_empty_driver wEngine3 (fun s => s) 3 ['X'] ['D'] [['c']] (by rfl)


/-- C8 counterexample: with column `a` whose value renders as `{{a}}`, the
loop `while '{{a}}' in q: q = q.replace('{{a}}', '{{a}}')` never terminates
on the template `{{a}}` — at both the single-loop and whole-row level.
Moreover, even when the row substitution terminates, a later column's value
can reintroduce an earlier column's placeholder, which then remains in the
final query: columns `a ↦ 1` and `b ↦ {{a}}` on template `{{a}}{{b}}` yield
`1{{a}}`, which still contains `{{a}}`. -/
theorem substitution_claim_counterexample :
    substLoopDiverges (placeKey ['a']) (placeKey ['a']) (placeKey ['a']) ∧
      substRowDiverges (fun s => s) [((['a'] : List Char), placeKey ['a'])] (placeKey ['a']) ∧
      substRow (fun s => s) 5 [((['a'] : List Char), ['1']), (['b'], placeKey ['a'])]
          (placeKey ['a'] ++ placeKey ['b']) = some ('1' :: placeKey ['a']) ∧
      containsSub (placeKey ['a']) ('1' :: placeKey ['a']) = true := by
  have hcont : containsSub (placeKey ['a']) (placeKey ['a']) = true := by decide
  have hfix : replaceAll (placeKey ['a']) (placeKey ['a']) (placeKey ['a']) =
      placeKey ['a'] := by decide
  have hloop : ∀ n, substLoop (placeKey ['a']) (placeKey ['a']) n (placeKey ['a']) = none := by
    intro n
    induction n with
    | zero => simp [substLoop, hcont]
    | succ n ih => simp [substLoop, hcont, hfix, ih]
  refine ⟨hloop, fun fuel => ?_, by decide, by decide⟩
  show (match substLoop (placeKey ['a']) (placeKey ['a']) fuel (placeKey ['a']) with
        | none => none
        | some q2 => substRow (fun s : List Char => s) fuel [] q2) = none
  rw [hloop fuel]

/-- C8 amended: the substitution loop need not terminate (a value containing
its own placeholder loops forever, and placeholders reintroduced by later
columns' values remain in the result — see the counterexample); what does
hold is that whenever the loop for one column terminates, the text it
returns contains no occurrence of that column's placeholder at that point. -/
theorem substLoop_no_key_on_termination (key val : List Char) :
    ∀ (fuel : Nat) (q q2 : List Char), substLoop key val fuel q = some q2 →
      containsSub key q2 = false := by
  intro fuel
  induction fuel with
  | zero =>
      intro q q2 h
      simp only [substLoop] at h
      by_cases hc : containsSub key q
      · rw [if_pos hc] at h
        exact absurd h (by simp)
      · rw [if_neg hc] at h
        injection h with h2
        subst h2
        exact Bool.of_not_eq_true hc
  | succ n ih =>
      intro q q2 h
      simp only [substLoop] at h
      by_cases hc : containsSub key q
      · rw [if_pos hc] at h
        exact ih _ _ h
      · rw [if_neg hc] at h
        injection h with h2
        subst h2
        exact Bool.of_not_eq_true hc

/-- Witness for `substLoop_no_key_on_termination`: substituting `a ↦ 1` into
`{{a}}z` terminates with `1z`, which contains no `{{a}}`. -/
theorem substLoop_no_key_on_termination_witness :
    substLoop (placeKey ['a']) ['1'] 3 (placeKey ['a'] ++ ['z']) = some ['1', 'z'] ∧
      containsSub (placeKey ['a']) ['1', 'z'] = false :=
  ⟨by decide, substLoop_no_key_on_termination (placeKey ['a']) ['1'] 3
      (placeKey ['a'] ++ ['z']) ['1', 'z'] (by decide)⟩

end RunQueryProofs


/-- C9: for every combination of step outcomes — success or exception at any
point — neither the staged upload `fp` nor the ingestion's temp spool file
`tn` is present after `process_excel_file` returns: the `finally` block and
the `with` block release both staging resources on every exit path. -/
theorem staging_cleanup (fp tn : String) (saveR sheetsR checkR ingestR : PyOutcome)
    (files : List String) (htn : tn ∉ files) :
    fp ∉ (processExcelFile fp tn saveR sheetsR checkR ingestR files).2 ∧
      tn ∉ (processExcelFile fp tn saveR sheetsR checkR ingestR files).2 := by
  have hmem : ∀ (a : String) (l : List String), a ∉ removeFile a l := by
    intro a l h
    rw [removeFile, List.mem_filter] at h
    simp at h
  have hsub : ∀ (a x : String) (l : List String), x ∈ removeFile a l → x ∈ l := by
    intro a x l h
    rw [removeFile, List.mem_filter] at h
    exact h.1
  have hmid : tn ∉ removeFile fp (files ++ [fp]) := by
    intro h
    rw [removeFile, List.mem_filter] at h
    rcases List.mem_append.mp h.1 with h1 | h1
    · exact htn h1
    · rw [List.mem_singleton] at h1
      subst h1
      simp at h
  cases saveR with
  | exn e => exact ⟨hmem fp files, fun h => htn (hsub fp tn files h)⟩
  | ok =>
      cases sheetsR with
      | exn e => exact ⟨hmem fp _, hmid⟩
      | ok =>
          cases checkR with
          | exn e => exact ⟨hmem fp _, hmid⟩
          | ok =>
              refine ⟨hmem fp _, fun h => ?_⟩
              exact hmem tn _ (hsub fp tn _ h)

/-- Witness for `staging_cleanup`: an ingestion that fails mid-run leaves
neither the staged upload nor the temp spool behind. -/
theorem staging_cleanup_witness :
    "up" ∉ (processExcelFile "up" "tmp" PyOutcome.ok PyOutcome.ok PyOutcome.ok
        (PyOutcome.exn "db down") ["other"]).2 ∧
      "tmp" ∉ (processExcelFile "up" "tmp" PyOutcome.ok PyOutcome.ok PyOutcome.ok
        (PyOutcome.exn "db down") ["other"]).2 :=
  staging_cleanup "up" "tmp" PyOutcome.ok PyOutcome.ok PyOutcome.ok
    (PyOutcome.exn "db down") ["other"] (by decide)

end QuerySheets
